import Mathlib

/-!
# linqxx: cursors, groupings and the group-by pipeline

A shallow embedding of `include/enumerable.hpp` and `include/group_enumerable.hpp`.

* Objects with mutable state are embedded by explicit state passing: a member
  function returns its C++ result together with the object after the call.
* The abstract classes `enumerator<T>` and `enumerable<T>` (pure virtual members)
  are embedded as state machines over an arbitrary state type.
* A callback that throws is embedded as a function into `Except`; a loop whose
  termination depends on the source is embedded with fuel (`none` = out of fuel).
-/

set_option linter.unusedVariables false

namespace linqxx

/-! ## enumerable.hpp -/

/-- The abstract cursor `enumerator<T>`: the only member is the pure virtual
`next()`, so a cursor is an arbitrary state together with the step `next()` performs. -/
structure enumerator (T : Type) where
  σ : Type
  state : σ
  step : σ → Option T × σ

/-- `std::optional<T> next()`: the optional item and the cursor after the call. -/
def enumerator.next {T : Type} (en : enumerator T) : Option T × enumerator T :=
  ((en.step en.state).1, { en with state := (en.step en.state).2 })

/-- The abstract sequence `enumerable<T>`: `enumerate()` and `share()` are pure virtual
and not `const`, so a sequence is an arbitrary state, the effect of `enumerate()` on it
(the fresh cursor and the state afterwards), and the state of the object `share()` hands out. -/
structure enumerable (T : Type) where
  ρ : Type
  self : ρ
  enumerate_impl : ρ → enumerator T × ρ
  share_impl : ρ → ρ

/-- `std::unique_ptr<enumerator<T>> enumerate()`: the cursor and the sequence after the call. -/
def enumerable.enumerate {T : Type} (s : enumerable T) : enumerator T × enumerable T :=
  ((s.enumerate_impl s.self).1, { s with self := (s.enumerate_impl s.self).2 })

/-- `std::shared_ptr<enumerable<T>> share()`. -/
def enumerable.share {T : Type} (s : enumerable T) : enumerable T :=
  { s with self := s.share_impl s.self }

/-! ## stl_enumerable.hpp (not among the sources) -/

/-- Modelled from the spec: `stl_enumerator<C>` of `stl_enumerable.hpp`, which is not among
the sources. It is built from an iterator pair `(begin, end)`; following the Cursor contract
of the spec ("a plain forward Cursor over the ordered list", "a position or an underlying
native iterator pair") its state is the range `[begin, end)` still to be produced. -/
structure stl_enumerator (X : Type) where
  range : List X

/-- Modelled from the spec: `stl_enumerator::next()`, per the Cursor contract: the next item
of the range, or absent at the end, and absent on every later call. -/
def stl_enumerator.next {X : Type} : stl_enumerator X → Option X × stl_enumerator X
  | ⟨[]⟩ => (none, ⟨[]⟩)
  | ⟨x :: xs⟩ => (some x, ⟨xs⟩)

/-- An `stl_enumerator` seen through its base class `enumerator`. -/
def stl_enumerator.toEnumerator {X : Type} (c : stl_enumerator X) : enumerator X :=
  ⟨stl_enumerator X, c, stl_enumerator.next⟩

/-- Modelled from the spec: a vector-backed sequence (`stl_enumerable`), whose every
`enumerate()` is a fresh cursor over the whole vector and which `share()` leaves as it is. -/
def stl_enumerable {T : Type} (xs : List T) : enumerable T :=
  ⟨List T, xs, fun s => ((stl_enumerator.mk s).toEnumerator, s), fun s => s⟩

/-! ## group_enumerable.hpp -/

/-- `grouping_enumerable<T, TKey>`: the private vector `items_` and the public `const TKey key`. -/
structure grouping_enumerable (T TKey : Type) where
  items_ : List T
  key : TKey
deriving DecidableEq, Repr

/-- Constructor `grouping_enumerable(TKey key, std::vector<T> items) : key(key), items_(items)`. -/
def grouping_enumerable.ctor {T TKey : Type} (key : TKey) (items : List T) :
    grouping_enumerable T TKey :=
  { items_ := items, key := key }

/-- `grouping_enumerable::from(key, items)`: `new grouping_enumerable(key, items)`. -/
def grouping_enumerable.from {T TKey : Type} (key : TKey) (items : List T) :
    grouping_enumerable T TKey :=
  grouping_enumerable.ctor key items

/-- `grouping_enumerable::enumerate()`: `new stl_enumerator(items_.begin(), items_.end())`.
The member writes no field, so the grouping after the call is the grouping before it. -/
def grouping_enumerable.enumerate {T TKey : Type} (g : grouping_enumerable T TKey) :
    stl_enumerator T × grouping_enumerable T TKey :=
  (stl_enumerator.mk g.items_, g)

/-- `grouping_enumerable::share()`: `new grouping_enumerable(key, items_)`; the new object
and the grouping after the call. -/
def grouping_enumerable.share {T TKey : Type} (g : grouping_enumerable T TKey) :
    grouping_enumerable T TKey × grouping_enumerable T TKey :=
  (grouping_enumerable.ctor g.key g.items_, g)

/-- `groupby_enumerator<T, TKey>`: an `stl_enumerator` over the vector of groups, which the
cursor owns as `source_`. -/
structure groupby_enumerator (T TKey : Type) extends
    stl_enumerator (grouping_enumerable T TKey) where
  source_ : List (grouping_enumerable T TKey)

/-- Constructor `groupby_enumerator(source)`:
`stl_enumerator(source->begin(), source->end()), source_(std::move(source))`. -/
def groupby_enumerator.ctor {T TKey : Type} (source : List (grouping_enumerable T TKey)) :
    groupby_enumerator T TKey :=
  { range := source, source_ := source }

/-- `groupby_enumerator::next()`: `return stl_enumerator<...>::next();`. -/
def groupby_enumerator.next {T TKey : Type} (c : groupby_enumerator T TKey) :
    Option (grouping_enumerable T TKey) × groupby_enumerator T TKey :=
  (c.tostl_enumerator.next.1, { c with tostl_enumerator := c.tostl_enumerator.next.2 })

/-- A `groupby_enumerator` seen through its base class `enumerator`. -/
def groupby_enumerator.toEnumerator {T TKey : Type} (c : groupby_enumerator T TKey) :
    enumerator (grouping_enumerable T TKey) :=
  ⟨groupby_enumerator T TKey, c, groupby_enumerator.next⟩

/-- `std::unordered_map<TKey, V, Hash, Pred>` as the list of its entries. Only `find` and
`operator[]` are used by the code, never iteration, so the order of the entries is not
observable. `Hash` only selects the bucket that is searched; for a `Hash` that is consistent
with `Pred` (which the container requires) the entry found is decided by `Pred` alone. -/
abbrev unordered_map (TKey V : Type) := List (TKey × V)

/-- `m.find(key)`: the entry whose key is equal to `key` under `Pred`, `none` for `end()`. -/
def unordered_map.find {TKey V : Type} (Pred : TKey → TKey → Bool)
    (m : unordered_map TKey V) (key : TKey) : Option (TKey × V) :=
  List.find? (fun e => Pred e.1 key) m

/-- `m[key].push_back(value)`: `operator[]` finds the entry of `key` or inserts one with an
empty vector, and `value` is appended to that entry's vector. -/
def unordered_map.subscript_push_back {TKey T : Type} (Pred : TKey → TKey → Bool) :
    unordered_map TKey (List T) → TKey → T → unordered_map TKey (List T)
  | [], key, value => [(key, [value])]
  | (k, vs) :: rest, key, value =>
    if Pred k key then (k, vs ++ [value]) :: rest
    else (k, vs) :: unordered_map.subscript_push_back Pred rest key value

/-- The value read by `m[key]`: the vector of the entry of `key`, or the empty vector that
`operator[]` inserts when there is none. -/
def unordered_map.subscript {TKey T : Type} (Pred : TKey → TKey → Bool)
    (m : unordered_map TKey (List T)) (key : TKey) : List T :=
  match unordered_map.find Pred m key with
  | some e => e.2
  | none => []

/-- `std::equal_to<TKey>`, the default `Pred`: `operator==`. -/
def std_equal_to {TKey : Type} [DecidableEq TKey] : TKey → TKey → Bool :=
  fun a b => decide (a = b)

/-- `groupby_enumerable<T, TKey, Hash, Pred>`: the shared `source` and the function pointer
`selector`. The key policy is a template parameter, hence a parameter of the type.
A selector that throws `e` is embedded as returning `Except.error e`. -/
structure groupby_enumerable (T TKey ε : Type) (Pred : TKey → TKey → Bool) where
  source : enumerable T
  selector : T → Except ε TKey

/-- A selector that never throws. -/
def total_selector {T TKey ε : Type} (K : T → TKey) : T → Except ε TKey :=
  fun x => Except.ok (K x)

/-- The `while (item = en->next())` loop of `groupby_enumerable::enumerate()`, lines 99-108.
`none`: the loop is still running when the fuel is spent; `some (error e)`: the selector
threw `e`, which nothing catches; `some (ok (keys, groupings))`: the loop ended on the first
absent `next()`. The condition converts the `std::optional` to `bool`, that is `has_value()`. -/
def groupby_enumerable.drain {T TKey ε : Type} (Pred : TKey → TKey → Bool)
    (selector : T → Except ε TKey) :
    Nat → enumerator T → List TKey → unordered_map TKey (List T) →
      Option (Except ε (List TKey × unordered_map TKey (List T)))
  | 0, _, _, _ => none
  | fuel + 1, en, keys, groupings =>
    match en.next with
    | (none, _) => some (Except.ok (keys, groupings))
    | (some value, en') =>
      match selector value with
      | Except.error e => some (Except.error e)
      | Except.ok key =>
        groupby_enumerable.drain Pred selector fuel en'
          (if (unordered_map.find Pred groupings key).isNone then keys ++ [key] else keys)
          (unordered_map.subscript_push_back Pred groupings key value)

/-- The `for (auto key : keys)` loop, lines 109-112:
`groups->push_back(grouping_enumerable::from(key, groupings[key]))`. -/
def groupby_enumerable.materialize {T TKey : Type} (Pred : TKey → TKey → Bool)
    (keys : List TKey) (groupings : unordered_map TKey (List T)) :
    List (grouping_enumerable T TKey) :=
  keys.map (fun key => grouping_enumerable.from key (unordered_map.subscript Pred groupings key))

/-- `groupby_enumerable::enumerate()`, lines 90-114: one cursor is taken from the source,
drained and bucketed, and a `groupby_enumerator` over the materialised groups is returned,
together with the pipeline after the call (its source has been enumerated once). -/
def groupby_enumerable.enumerate {T TKey ε : Type} {Pred : TKey → TKey → Bool}
    (fuel : Nat) (q : groupby_enumerable T TKey ε Pred) :
    Option (Except ε (groupby_enumerator T TKey × groupby_enumerable T TKey ε Pred)) :=
  match groupby_enumerable.drain Pred q.selector fuel q.source.enumerate.1 [] [] with
  | none => none
  | some (Except.error e) => some (Except.error e)
  | some (Except.ok (keys, groupings)) =>
    some (Except.ok (groupby_enumerator.ctor (groupby_enumerable.materialize Pred keys groupings),
      { q with source := q.source.enumerate.2 }))

/-- Constructor `groupby_enumerable(source, selector) : source(source), selector(selector)`. -/
def groupby_enumerable.ctor {T TKey ε : Type} (Pred : TKey → TKey → Bool)
    (source : enumerable T) (selector : T → Except ε TKey) : groupby_enumerable T TKey ε Pred :=
  { source := source, selector := selector }

/-- `groupby_enumerable<T, TKey, Hash, Pred>::from(source, selector)`, lines 116-120:
`new groupby_enumerable<T, TKey>(source, selector)`. The object built names only `T` and
`TKey`, so its policy is the default `std::hash<TKey>`, `std::equal_to<TKey>` whatever
`Hash` and `Pred` the member was instantiated with. -/
def groupby_enumerable.from {T TKey ε : Type} [DecidableEq TKey] (Pred : TKey → TKey → Bool)
    (source : enumerable T) (selector : T → Except ε TKey) :
    groupby_enumerable T TKey ε std_equal_to :=
  groupby_enumerable.ctor std_equal_to source selector

/-- `groupby_enumerable<T, TKey, Hash, Pred>::share()`, lines 126-130:
`new groupby_enumerable<T, TKey>(source, selector)`. -/
def groupby_enumerable.share {T TKey ε : Type} [DecidableEq TKey] {Pred : TKey → TKey → Bool}
    (q : groupby_enumerable T TKey ε Pred) : groupby_enumerable T TKey ε std_equal_to :=
  groupby_enumerable.ctor std_equal_to q.source q.selector

/-- `enumerable<T>::group_by<TKey, Hash, Pred>(selector)`, lines 132-137:
`groupby_enumerable<T, TKey, Hash, Pred>::from(this->share(), selector)`. -/
def enumerable.group_by {T TKey ε : Type} [DecidableEq TKey] (Pred : TKey → TKey → Bool)
    (this : enumerable T) (selector : T → Except ε TKey) :
    groupby_enumerable T TKey ε std_equal_to :=
  groupby_enumerable.from Pred this.share selector


/-! ## Which instantiations of `group_by` are programs -/

/-- Pulling `en` produces exactly the items `S`, in order, and then its first absent result. -/
def enumerator.yields {T : Type} : enumerator T → List T → Prop
  | en, [] => en.next.1 = none
  | en, x :: xs => en.next.1 = some x ∧ enumerator.yields en.next.2 xs

/-- Whether a cursor yields a given list can be decided by pulling it. -/
instance enumerator.decidable_yields {T : Type} [DecidableEq T] :
    (en : enumerator T) → (S : List T) → Decidable (en.yields S)
  | en, [] => inferInstanceAs (Decidable (en.next.1 = none))
  | en, x :: xs =>
    have := enumerator.decidable_yields en.next.2 xs
    inferInstanceAs (Decidable (en.next.1 = some x ∧ enumerator.yields en.next.2 xs))

/-- The distinct values of a list, ordered by the position of their first occurrence
(written from the spec's words, not from the code: each value is kept where it first
occurs and removed from the rest). -/
def firstSeen {K : Type} [DecidableEq K] : List K → List K
  | [] => []
  | k :: ks => k :: (firstSeen ks).filter (fun k' => k' ≠ k)

/-- The groups the spec asks for: one per distinct key in first-seen order, holding the
source items with that key in source order. -/
def expected_groups {T TKey : Type} [DecidableEq TKey] (K : T → TKey) (S : List T) :
    List (grouping_enumerable T TKey) :=
  (firstSeen (S.map K)).map (fun k => { items_ := S.filter (fun x => K x = k), key := k })

/-- One pass of the body of the drain loop for an item whose key is `K value`. -/
def drain_step {T TKey : Type} (Pred : TKey → TKey → Bool) (K : T → TKey)
    (st : List TKey × unordered_map TKey (List T)) (value : T) :
    List TKey × unordered_map TKey (List T) :=
  (if (unordered_map.find Pred st.2 (K value)).isNone then st.1 ++ [K value] else st.1,
    unordered_map.subscript_push_back Pred st.2 (K value) value)

/-- The cursor after `n` calls of `next()`. -/
def groupby_enumerator.after {T TKey : Type} :
    Nat → groupby_enumerator T TKey → groupby_enumerator T TKey
  | 0, c => c
  | n + 1, c => groupby_enumerator.after n c.next.2

/-- The sequence after `n` calls of `enumerate()`. -/
def enumerable.after {T : Type} : Nat → enumerable T → enumerable T
  | 0, s => s
  | n + 1, s => enumerable.after n s.enumerate.2

/-- Every call of `enumerate()` on the sequence, the first and each later one, returns a
cursor that yields the same finite item list `S`. -/
def enumerable.reproduces {T : Type} (s : enumerable T) (S : List T) : Prop :=
  ∀ n, (enumerable.after n s).enumerate.1.yields S

/-- The grouping after `n` calls of `enumerate()`. -/
def grouping_enumerable.after {T TKey : Type} :
    Nat → grouping_enumerable T TKey → grouping_enumerable T TKey
  | 0, g => g
  | n + 1, g => grouping_enumerable.after n g.enumerate.2

/-! ## The pipeline with its calls recorded

The same member functions once more, each returning beside its result the calls it makes
on its collaborators, in the order it makes them. Erasing the record gives back the
functions above (`drain_traced_erase`, `enumerate_traced_erase`). -/

/-- A call made on a collaborator of the pipeline: `share()` or `enumerate()` on the source
sequence, `next()` on the cursor obtained from the source (with what it returned), or the
selector (with its argument). -/
inductive call (T : Type) where
  | source_share
  | source_enumerate
  | cursor_next (result : Option T)
  | selector_call (value : T)
deriving DecidableEq, Repr

/-- The argument of a selector call. -/
def call.selected {T : Type} : call T → Option T
  | call.selector_call value => some value
  | _ => none

/-- The result of a `next()` on the source cursor. -/
def call.pulled {T : Type} : call T → Option (Option T)
  | call.cursor_next result => some result
  | _ => none

/-- Whether the call is an `enumerate()` on the source. -/
def call.is_source_enumerate {T : Type} : call T → Bool
  | call.source_enumerate => true
  | _ => false

/-- The loop of lines 99-108 as in `groupby_enumerable.drain`, recording `en->next()`
(line 99) and `selector(value)` (line 102); `find`, `push_back` and `operator[]` work on
the local `keys` and `groupings` only. -/
def groupby_enumerable.drain_traced {T TKey ε : Type} (Pred : TKey → TKey → Bool)
    (selector : T → Except ε TKey) :
    Nat → enumerator T → List TKey → unordered_map TKey (List T) → List (call T) →
      Option (Except ε (List TKey × unordered_map TKey (List T)) × List (call T))
  | 0, _, _, _, _ => none
  | fuel + 1, en, keys, groupings, log =>
    match en.next with
    | (none, _) => some (Except.ok (keys, groupings), log ++ [call.cursor_next none])
    | (some value, en') =>
      match selector value with
      | Except.error e =>
        some (Except.error e, log ++ [call.cursor_next (some value), call.selector_call value])
      | Except.ok key =>
        groupby_enumerable.drain_traced Pred selector fuel en'
          (if (unordered_map.find Pred groupings key).isNone then keys ++ [key] else keys)
          (unordered_map.subscript_push_back Pred groupings key value)
          (log ++ [call.cursor_next (some value), call.selector_call value])

/-- `groupby_enumerable::enumerate()` as in `groupby_enumerable.enumerate`, recording
`source->enumerate()` (line 97) and the calls of the loop; the materialize loop and the
construction of the result cursor (lines 109-113) call neither the source nor the selector. -/
def groupby_enumerable.enumerate_traced {T TKey ε : Type} {Pred : TKey → TKey → Bool}
    (fuel : Nat) (q : groupby_enumerable T TKey ε Pred) :
    Option (Except ε (groupby_enumerator T TKey × groupby_enumerable T TKey ε Pred)
      × List (call T)) :=
  match groupby_enumerable.drain_traced Pred q.selector fuel q.source.enumerate.1 [] []
      [call.source_enumerate] with
  | none => none
  | some (Except.error e, log) => some (Except.error e, log)
  | some (Except.ok (keys, groupings), log) =>
    some (Except.ok (groupby_enumerator.ctor (groupby_enumerable.materialize Pred keys groupings),
      { q with source := q.source.enumerate.2 }), log)

/-- `groupby_enumerable::from`, lines 116-120: the constructor stores its two arguments
(lines 122-124) and calls nothing. -/
def groupby_enumerable.from_traced {T TKey ε : Type} [DecidableEq TKey]
    (Pred : TKey → TKey → Bool) (source : enumerable T) (selector : T → Except ε TKey) :
    groupby_enumerable T TKey ε std_equal_to × List (call T) :=
  (groupby_enumerable.from Pred source selector, [])

/-- `groupby_enumerable::share`, lines 126-130: the constructor stores the two fields and
calls nothing. -/
def groupby_enumerable.share_traced {T TKey ε : Type} [DecidableEq TKey]
    {Pred : TKey → TKey → Bool} (q : groupby_enumerable T TKey ε Pred) :
    groupby_enumerable T TKey ε std_equal_to × List (call T) :=
  (q.share, [])

/-- `enumerable<T>::group_by`, lines 132-137: `this->share()`, then `from`. -/
def enumerable.group_by_traced {T TKey ε : Type} [DecidableEq TKey]
    (Pred : TKey → TKey → Bool) (this : enumerable T) (selector : T → Except ε TKey) :
    groupby_enumerable T TKey ε std_equal_to × List (call T) :=
  ((groupby_enumerable.from_traced Pred this.share selector).1,
    call.source_share :: (groupby_enumerable.from_traced Pred this.share selector).2)

/-- `groupby_enumerator::next()`, lines 84-88: `stl_enumerator::next()` over the cursor's own
vector of groups; the cursor holds neither the source nor the selector and calls neither. -/
def groupby_enumerator.next_traced (S : Type) {T TKey : Type} (c : groupby_enumerator T TKey) :
    (Option (grouping_enumerable T TKey) × groupby_enumerator T TKey) × List (call S) :=
  (c.next, [])

/-! ## Example inputs -/

/-- The example input of the spec: `[("a",1),("b",2),("a",3),("c",4),("b",5)]`. -/
def example_items : List (String × Nat) := [("a", 1), ("b", 2), ("a", 3), ("c", 4), ("b", 5)]

/-- `group_by` keyed by the first element over a vector holding `example_items`. -/
def example_query : groupby_enumerable (String × Nat) String Unit std_equal_to :=
  (stl_enumerable example_items).group_by std_equal_to (total_selector Prod.fst)

/-- A selector that throws on the items 7 and 9 and is the identity elsewhere. -/
def failing_selector (x : Nat) : Except String Nat :=
  if x = 7 then Except.error "seven" else if x = 9 then Except.error "nine" else Except.ok x

/-- `group_by` with `failing_selector` over a vector holding 1, 7, 2, 9. -/
def failing_query : groupby_enumerable Nat Nat String std_equal_to :=
  (stl_enumerable [1, 7, 2, 9]).group_by std_equal_to failing_selector

/-! ## Lemmas on `firstSeen` -/

theorem mem_firstSeen {K : Type} [DecidableEq K] (l : List K) (k : K) :
    k ∈ firstSeen l ↔ k ∈ l := by
  induction l with
  | nil => simp [firstSeen]
  | cons a l ih =>
    simp only [firstSeen, List.mem_cons, List.mem_filter, ih]
    by_cases h : k = a <;> simp [h]

theorem firstSeen_nodup {K : Type} [DecidableEq K] (l : List K) : (firstSeen l).Nodup := by
  induction l with
  | nil => simp [firstSeen]
  | cons a l ih =>
    simp only [firstSeen, List.nodup_cons, List.mem_filter]
    exact ⟨by simp, ih.filter _⟩

theorem firstSeen_snoc {K : Type} [DecidableEq K] (l : List K) (k : K) :
    firstSeen (l ++ [k]) = if k ∈ l then firstSeen l else firstSeen l ++ [k] := by
  induction l with
  | nil => simp [firstSeen]
  | cons a l ih =>
    have hcons : firstSeen (a :: l ++ [k])
        = a :: (firstSeen (l ++ [k])).filter (fun k' => k' ≠ a) := rfl
    have hcons' : firstSeen (a :: l) = a :: (firstSeen l).filter (fun k' => k' ≠ a) := rfl
    rw [hcons, hcons', ih]
    by_cases hka : k = a
    · subst hka
      by_cases hkl : k ∈ l <;> simp [hkl, List.filter_append]
    · by_cases hkl : k ∈ l <;> simp [hkl, hka, List.filter_append]

theorem firstSeen_pairwise_indexOf {K : Type} [DecidableEq K] (l : List K) :
    (firstSeen l).Pairwise (fun a b => l.indexOf a < l.indexOf b) := by
  induction l with
  | nil => simp [firstSeen]
  | cons a l ih =>
    simp only [firstSeen, List.pairwise_cons]
    refine ⟨?_, ?_⟩
    · intro b hb
      have hba : b ≠ a := by simpa using (List.mem_filter.mp hb).2
      rw [List.indexOf_cons_self, List.indexOf_cons_ne _ (Ne.symm hba)]
      exact Nat.succ_pos _
    · rw [List.pairwise_filter]
      refine ih.imp ?_
      intro x y hxy hx hy
      have hxa : x ≠ a := by simpa using hx
      have hya : y ≠ a := by simpa using hy
      rw [List.indexOf_cons_ne _ (Ne.symm hxa), List.indexOf_cons_ne _ (Ne.symm hya)]
      exact Nat.succ_lt_succ hxy


/-! ## Lemmas on the bucket map under the default policy -/

theorem find_keyed {TKey V : Type} [DecidableEq TKey] (ks : List TKey) (f : TKey → V)
    (key : TKey) :
    unordered_map.find std_equal_to (ks.map (fun k => (k, f k))) key
      = if key ∈ ks then some (key, f key) else none := by
  induction ks with
  | nil => simp [unordered_map.find]
  | cons a ks ih =>
    unfold unordered_map.find at ih ⊢
    by_cases h : a = key
    · subst h
      simp [List.find?, std_equal_to]
    · have h' : ¬ key = a := fun e => h e.symm
      have hp : std_equal_to a key = false := by simp [std_equal_to, h]
      rw [List.map_cons, List.find?_cons, hp, ih]
      simp [h']

theorem subscript_push_back_keyed {T TKey : Type} [DecidableEq TKey] (ks : List TKey)
    (hnd : ks.Nodup) (f : TKey → List T) (key : TKey) (value : T) :
    unordered_map.subscript_push_back std_equal_to (ks.map (fun k => (k, f k))) key value
      = if key ∈ ks then ks.map (fun k => (k, if k = key then f k ++ [value] else f k))
        else ks.map (fun k => (k, f k)) ++ [(key, [value])] := by
  induction ks with
  | nil => simp [unordered_map.subscript_push_back]
  | cons a ks ih =>
    have hnd' := List.nodup_cons.mp hnd
    by_cases h : a = key
    · subst h
      have hcongr : ks.map (fun k => (k, f k))
          = ks.map (fun k => (k, if k = a then f k ++ [value] else f k)) := by
        apply List.map_congr_left
        intro k hk
        have hka : k ≠ a := fun e => hnd'.1 (e ▸ hk)
        simp [hka]
      simp [unordered_map.subscript_push_back, std_equal_to, ← hcongr]
    · have h' : ¬ key = a := fun e => h e.symm
      simp only [List.map_cons, unordered_map.subscript_push_back, std_equal_to, h,
        decide_False, Bool.false_eq_true, if_false, ih hnd'.2, List.mem_cons, h', false_or]
      by_cases hk : key ∈ ks <;> simp [hk, h]

theorem foldl_drain_step {T TKey : Type} [DecidableEq TKey] (K : T → TKey) (P : List T) :
    P.foldl (drain_step std_equal_to K) ([], [])
      = (firstSeen (P.map K),
          (firstSeen (P.map K)).map (fun k => (k, P.filter (fun x => K x = k)))) := by
  induction P using List.reverseRecOn with
  | nil => simp [firstSeen]
  | append_singleton P x ih =>
    rw [List.foldl_append, ih]
    simp only [List.foldl_cons, List.foldl_nil, drain_step, List.map_append, List.map_cons,
      List.map_nil, firstSeen_snoc]
    rw [find_keyed, subscript_push_back_keyed _ (firstSeen_nodup _)]
    simp only [mem_firstSeen]
    by_cases hmem : K x ∈ P.map K
    · simp only [hmem, if_true, Option.isNone_some, Bool.false_eq_true, if_false]
      congr 1
      apply List.map_congr_left
      intro k hk
      by_cases hkx : k = K x
      · simp [hkx, List.filter_append]
      · have hkx' : ¬ K x = k := fun e => hkx e.symm
        simp [hkx, hkx', List.filter_append]
    · simp only [hmem, if_false, Option.isNone_none, if_true]
      congr 1
      rw [List.map_append]
      congr 1
      · apply List.map_congr_left
        intro k hk
        have hkP : k ∈ P.map K := (mem_firstSeen _ _).mp hk
        have hkx' : ¬ K x = k := fun e => hmem (e ▸ hkP)
        simp [hkx', List.filter_append]
      · have hnil : P.filter (fun y => K y = K x) = [] := by
          rw [List.filter_eq_nil_iff]
          intro y hy hyx
          exact hmem (List.mem_map.mpr ⟨y, hy, by simpa using hyx⟩)
        simp [List.filter_append, hnil]

theorem materialize_keyed {T TKey : Type} [DecidableEq TKey] (ks : List TKey)
    (f : TKey → List T) :
    groupby_enumerable.materialize std_equal_to ks (ks.map (fun k => (k, f k)))
      = ks.map (fun k => { items_ := f k, key := k }) := by
  unfold groupby_enumerable.materialize
  apply List.map_congr_left
  intro k hk
  simp [unordered_map.subscript, find_keyed, hk, grouping_enumerable.from,
    grouping_enumerable.ctor]

/-! ## The drain loop on a finite source -/

theorem drain_ok {T TKey ε : Type} (Pred : TKey → TKey → Bool)
    (selector : T → Except ε TKey) (K : T → TKey) (S : List T) :
    ∀ (fuel : Nat) (en : enumerator T) (keys : List TKey)
      (groupings : unordered_map TKey (List T)),
      en.yields S → (∀ x ∈ S, selector x = Except.ok (K x)) → S.length < fuel →
      groupby_enumerable.drain Pred selector fuel en keys groupings
        = some (Except.ok (S.foldl (drain_step Pred K) (keys, groupings))) := by
  induction S with
  | nil =>
    intro fuel en keys groupings hy _ hlt
    obtain ⟨n, rfl⟩ : ∃ n, fuel = n + 1 := ⟨fuel - 1, by simp at hlt; omega⟩
    simp only [enumerator.yields] at hy
    unfold groupby_enumerable.drain
    split
    · rfl
    · rename_i value en' heq
      rw [heq] at hy
      simp at hy
  | cons x S ih =>
    intro fuel en keys groupings hy hsel hlt
    obtain ⟨n, rfl⟩ : ∃ n, fuel = n + 1 := ⟨fuel - 1, by simp at hlt; omega⟩
    simp only [enumerator.yields] at hy
    unfold groupby_enumerable.drain
    split
    · rename_i en' heq
      rw [heq] at hy
      simp at hy
    · rename_i value en' heq
      rw [heq] at hy
      simp only [Option.some.injEq] at hy
      obtain ⟨rfl, hy'⟩ := hy
      have hx := hsel value (List.mem_cons_self _ _)
      simp only [hx]
      rw [ih n en' _ _ hy' (fun y hyS => hsel y (List.mem_cons_of_mem _ hyS))
        (by simp at hlt; omega)]
      rfl

/-- On a source that yields `S`, with a selector that returns `K x` on every item of `S`,
`enumerate()` under the default policy returns once the fuel exceeds the length of `S`:
a cursor over `expected_groups K S`, and the source has been enumerated once. -/
theorem enumerate_ok {T TKey ε : Type} [DecidableEq TKey]
    (q : groupby_enumerable T TKey ε std_equal_to) (K : T → TKey) (S : List T) (fuel : Nat)
    (hy : q.source.enumerate.1.yields S) (hsel : ∀ x ∈ S, q.selector x = Except.ok (K x))
    (hfuel : S.length < fuel) :
    q.enumerate fuel = some (Except.ok (groupby_enumerator.ctor (expected_groups K S),
      { q with source := q.source.enumerate.2 })) := by
  unfold groupby_enumerable.enumerate
  rw [drain_ok std_equal_to q.selector K S fuel _ [] [] hy hsel hfuel, foldl_drain_step]
  simp only [materialize_keyed]
  rfl


/-! ## What the cursors yield -/

theorem stl_enumerator_yields {X : Type} (l : List X) :
    (stl_enumerator.mk l).toEnumerator.yields l := by
  induction l with
  | nil => simp [enumerator.yields, enumerator.next, stl_enumerator.toEnumerator,
      stl_enumerator.next]
  | cons x xs ih =>
    refine ⟨?_, ?_⟩
    · simp [enumerator.next, stl_enumerator.toEnumerator, stl_enumerator.next]
    · exact ih

theorem stl_enumerable_yields {T : Type} (xs : List T) :
    (stl_enumerable xs).enumerate.1.yields xs :=
  stl_enumerator_yields xs

theorem groupby_enumerator_yields {T TKey : Type} (l src : List (grouping_enumerable T TKey)) :
    (groupby_enumerator.toEnumerator { range := l, source_ := src }).yields l := by
  induction l with
  | nil => simp [enumerator.yields, enumerator.next, groupby_enumerator.toEnumerator,
      groupby_enumerator.next, stl_enumerator.next]
  | cons x xs ih =>
    refine ⟨?_, ?_⟩
    · simp [enumerator.next, groupby_enumerator.toEnumerator, groupby_enumerator.next,
        stl_enumerator.next]
    · exact ih

theorem ctor_yields {T TKey : Type} (groups : List (grouping_enumerable T TKey)) :
    (groupby_enumerator.ctor groups).toEnumerator.yields groups :=
  groupby_enumerator_yields groups groups

theorem yields_unique {T : Type} (S₁ : List T) :
    ∀ (S₂ : List T) (en : enumerator T), en.yields S₁ → en.yields S₂ → S₁ = S₂ := by
  induction S₁ with
  | nil =>
    intro S₂ en h1 h2
    cases S₂ with
    | nil => rfl
    | cons y ys =>
      simp only [enumerator.yields] at h1 h2
      rw [h1] at h2
      simp at h2
  | cons x xs ih =>
    intro S₂ en h1 h2
    cases S₂ with
    | nil =>
      simp only [enumerator.yields] at h1 h2
      rw [h2] at h1
      simp at h1
    | cons y ys =>
      simp only [enumerator.yields] at h1 h2
      have hxy : x = y := by
        have := h1.1.symm.trans h2.1
        simpa using this
      rw [hxy, ih ys _ h1.2 h2.2]

theorem example_query_yields : example_query.source.enumerate.1.yields example_items :=
  stl_enumerable_yields example_items

/-! ## C1: first-seen key order -/

/-- C1: on a finite source `S` with key selector `K`, `enumerate()` returns a cursor whose
Groupings appear in first-seen key order: the list of their keys is the list of distinct
values of `K` over `S` (no duplicates, the same members as `S.map K`), ordered by the
position of each key's first occurrence in `S`. -/
theorem C1_keys_in_first_seen_order {T TKey ε : Type} [DecidableEq TKey]
    (q : groupby_enumerable T TKey ε std_equal_to) (K : T → TKey) (S : List T) (fuel : Nat)
    (hy : q.source.enumerate.1.yields S) (hsel : ∀ x ∈ S, q.selector x = Except.ok (K x))
    (hfuel : S.length < fuel) :
    ∃ cur q' groups, q.enumerate fuel = some (Except.ok (cur, q')) ∧
      cur.source_ = groups ∧ cur.toEnumerator.yields groups ∧
      groups.map (fun g => g.key) = firstSeen (S.map K) ∧
      (groups.map (fun g => g.key)).Nodup ∧
      (∀ k, k ∈ groups.map (fun g => g.key) ↔ k ∈ S.map K) ∧
      (groups.map (fun g => g.key)).Pairwise
        (fun a b => (S.map K).indexOf a < (S.map K).indexOf b) := by
  have hkeys : (expected_groups K S).map (fun g => g.key) = firstSeen (S.map K) := by
    simp [expected_groups, Function.comp_def]
  refine ⟨_, _, expected_groups K S, enumerate_ok q K S fuel hy hsel hfuel, rfl, ctor_yields _,
    hkeys, ?_, ?_, ?_⟩
  · rw [hkeys]; exact firstSeen_nodup _
  · intro k; rw [hkeys]; exact mem_firstSeen _ _
  · rw [hkeys]; exact firstSeen_pairwise_indexOf _

/-- C1 at the spec's example: the hypotheses hold there and the key order is a, b, c. -/
theorem C1_keys_in_first_seen_order_witness :
    ∃ cur q' groups, example_query.enumerate 6 = some (Except.ok (cur, q')) ∧
      cur.toEnumerator.yields groups ∧
      groups.map (fun g => g.key) = ["a", "b", "c"] := by
  obtain ⟨cur, q', groups, h1, _, h2, h3, _⟩ :=
    C1_keys_in_first_seen_order example_query Prod.fst example_items 6
      example_query_yields (fun _ _ => rfl) (by decide)
  exact ⟨cur, q', groups, h1, h2, h3.trans (by decide)⟩

/-! ## C2: bucket contents -/

/-- C2: on a finite source `S` with key selector `K`, every Grouping `g` produced by
`enumerate()` holds, and enumerates, exactly the items `x` of `S` with `K x = g.key`, in the
order they have in `S`; and every item of `S` has the Grouping of its key. -/
theorem C2_bucket_is_source_filtered_by_key {T TKey ε : Type} [DecidableEq TKey]
    (q : groupby_enumerable T TKey ε std_equal_to) (K : T → TKey) (S : List T) (fuel : Nat)
    (hy : q.source.enumerate.1.yields S) (hsel : ∀ x ∈ S, q.selector x = Except.ok (K x))
    (hfuel : S.length < fuel) :
    ∃ cur q' groups, q.enumerate fuel = some (Except.ok (cur, q')) ∧
      cur.source_ = groups ∧ cur.toEnumerator.yields groups ∧
      (∀ g ∈ groups, g.items_ = S.filter (fun x => K x = g.key) ∧
        g.enumerate.1.toEnumerator.yields (S.filter (fun x => K x = g.key))) ∧
      (∀ x ∈ S, ∃ g ∈ groups, g.key = K x ∧ x ∈ g.items_) := by
  refine ⟨_, _, expected_groups K S, enumerate_ok q K S fuel hy hsel hfuel, rfl, ctor_yields _,
    ?_, ?_⟩
  · intro g hg
    obtain ⟨k, _, rfl⟩ := List.mem_map.mp hg
    exact ⟨rfl, stl_enumerator_yields _⟩
  · intro x hx
    refine ⟨{ items_ := S.filter (fun y => K y = K x), key := K x }, ?_, rfl, ?_⟩
    · exact List.mem_map.mpr ⟨K x, (mem_firstSeen _ _).mpr (List.mem_map_of_mem K hx), rfl⟩
    · simp [hx]

/-- C2 at the spec's example: the buckets are a:[1,3], b:[2,5], c:[4]. -/
theorem C2_bucket_is_source_filtered_by_key_witness :
    ∃ cur q' groups, example_query.enumerate 6 = some (Except.ok (cur, q')) ∧
      cur.toEnumerator.yields groups ∧
      groups = [{ items_ := [("a", 1), ("a", 3)], key := "a" },
        { items_ := [("b", 2), ("b", 5)], key := "b" }, { items_ := [("c", 4)], key := "c" }] ∧
      (∀ g ∈ groups, g.items_ = example_items.filter (fun x => x.1 = g.key)) := by
  obtain ⟨cur, q', groups, h1, _, h2, h3, _⟩ :=
    C2_bucket_is_source_filtered_by_key example_query Prod.fst example_items 6
      example_query_yields (fun _ _ => rfl) (by decide)
  have hex : example_query.enumerate 6 = some (Except.ok (groupby_enumerator.ctor
      [{ items_ := [("a", 1), ("a", 3)], key := "a" },
        { items_ := [("b", 2), ("b", 5)], key := "b" }, { items_ := [("c", 4)], key := "c" }],
      { example_query with source := example_query.source.enumerate.2 })) := by
    rw [enumerate_ok example_query Prod.fst example_items 6 example_query_yields
      (fun _ _ => rfl) (by decide)]
    have : expected_groups Prod.fst example_items
        = [{ items_ := [("a", 1), ("a", 3)], key := "a" },
          { items_ := [("b", 2), ("b", 5)], key := "b" },
          { items_ := [("c", 4)], key := "c" }] := by decide
    rw [this]
  rw [hex] at h1
  simp only [Option.some.injEq, Except.ok.injEq, Prod.mk.injEq] at h1
  have hg : groups = _ := yields_unique _ _ _ h2 (h1.1 ▸ ctor_yields _)
  exact ⟨cur, q', groups, by rw [hex, h1.1, h1.2], h2, hg, fun g hg' => (h3 g hg').1⟩


/-! ## C3: the key policy -/

/-- C4: on an empty source (one whose cursor is absent on its first `next()`), for every
selector (even one that would throw) and every key policy, `enumerate()` returns a cursor and
raises nothing; the cursor holds zero Groupings and its first `next()` is absent. -/
theorem C4_empty_source_no_groupings {T TKey ε : Type} {Pred : TKey → TKey → Bool}
    (q : groupby_enumerable T TKey ε Pred) (fuel : Nat)
    (hy : q.source.enumerate.1.yields []) (hfuel : 0 < fuel) :
    ∃ cur q', q.enumerate fuel = some (Except.ok (cur, q')) ∧
      cur.source_ = [] ∧ cur.next.1 = none ∧ cur.toEnumerator.yields [] := by
  obtain ⟨n, rfl⟩ : ∃ n, fuel = n + 1 := ⟨fuel - 1, by omega⟩
  simp only [enumerator.yields] at hy
  have hdrain : groupby_enumerable.drain Pred q.selector (n + 1) q.source.enumerate.1 [] []
      = some (Except.ok ([], [])) := by
    unfold groupby_enumerable.drain
    split
    · rfl
    · rename_i value en' heq
      rw [heq] at hy
      simp at hy
  refine ⟨groupby_enumerator.ctor [], { q with source := q.source.enumerate.2 }, ?_, rfl, rfl,
    ctor_yields []⟩
  unfold groupby_enumerable.enumerate
  rw [hdrain]
  rfl

/-- C4 at an empty vector with a selector that throws on every item. -/
theorem C4_empty_source_no_groupings_witness :
    ∃ cur q', groupby_enumerable.enumerate 1
        ((stl_enumerable ([] : List Nat)).group_by std_equal_to
          (fun _ => (Except.error "boom" : Except String Nat))) = some (Except.ok (cur, q')) ∧
      cur.source_ = [] ∧ cur.next.1 = none ∧ cur.toEnumerator.yields [] :=
  C4_empty_source_no_groupings _ 1 (stl_enumerable_yields []) (by decide)

/-! ## C5: a single key -/

theorem firstSeen_const_map {T TKey : Type} [DecidableEq TKey] (k : TKey) (S : List T)
    (hne : S ≠ []) : firstSeen (S.map (fun _ => k)) = [k] := by
  induction S with
  | nil => exact absurd rfl hne
  | cons x xs ih =>
    cases xs with
    | nil => simp [firstSeen]
    | cons y ys =>
      show k :: (firstSeen ((y :: ys).map (fun _ => k))).filter (fun k' => k' ≠ k) = [k]
      rw [ih (by simp)]
      simp

/-- C5: on a non-empty finite source `S` whose every item the selector maps to the same key
`k`, `enumerate()` yields exactly one Grouping; its key is `k` and its items are `S` in
source order. -/
theorem C5_single_key_single_grouping {T TKey ε : Type} [DecidableEq TKey]
    (q : groupby_enumerable T TKey ε std_equal_to) (k : TKey) (S : List T) (fuel : Nat)
    (hy : q.source.enumerate.1.yields S) (hne : S ≠ [])
    (hsel : ∀ x ∈ S, q.selector x = Except.ok k) (hfuel : S.length < fuel) :
    ∃ cur q' g, q.enumerate fuel = some (Except.ok (cur, q')) ∧
      cur.source_ = [g] ∧ cur.toEnumerator.yields [g] ∧
      g.key = k ∧ g.items_ = S ∧ g.enumerate.1.toEnumerator.yields S := by
  have hgroups : expected_groups (fun _ => k) S = [{ items_ := S, key := k }] := by
    unfold expected_groups
    rw [firstSeen_const_map k S hne]
    simp
  have h := enumerate_ok q (fun _ => k) S fuel hy hsel hfuel
  rw [hgroups] at h
  exact ⟨_, _, { items_ := S, key := k }, h, rfl, ctor_yields _, rfl, rfl,
    stl_enumerator_yields S⟩

/-- C5 at the items 4, 8, 15 keyed by the constant `true`. -/
theorem C5_single_key_single_grouping_witness :
    ∃ cur q' g, groupby_enumerable.enumerate 4
        ((stl_enumerable [4, 8, 15]).group_by std_equal_to
          (total_selector (fun _ => true) : Nat → Except Unit Bool))
          = some (Except.ok (cur, q')) ∧
      cur.source_ = [g] ∧ cur.toEnumerator.yields [g] ∧
      g.key = true ∧ g.items_ = [4, 8, 15] ∧ g.enumerate.1.toEnumerator.yields [4, 8, 15] :=
  C5_single_key_single_grouping _ true [4, 8, 15] 4 (stl_enumerable_yields _) (by decide)
    (fun _ _ => rfl) (by decide)


/-! ## C6: a failing selector -/

theorem drain_error {T TKey ε : Type} (Pred : TKey → TKey → Bool)
    (selector : T → Except ε TKey) (x : T) (post : List T) (e : ε) (pre : List T) :
    ∀ (fuel : Nat) (en : enumerator T) (keys : List TKey)
      (groupings : unordered_map TKey (List T)),
      en.yields (pre ++ x :: post) → (∀ y ∈ pre, ∃ k, selector y = Except.ok k) →
      selector x = Except.error e → pre.length < fuel →
      groupby_enumerable.drain Pred selector fuel en keys groupings
        = some (Except.error e) := by
  induction pre with
  | nil =>
    intro fuel en keys groupings hy _ hx hlt
    obtain ⟨n, rfl⟩ : ∃ n, fuel = n + 1 := ⟨fuel - 1, by simp at hlt; omega⟩
    simp only [List.nil_append, enumerator.yields] at hy
    unfold groupby_enumerable.drain
    split
    · rename_i en' heq
      rw [heq] at hy
      simp at hy
    · rename_i value en' heq
      rw [heq] at hy
      simp only [Option.some.injEq] at hy
      obtain ⟨rfl, _⟩ := hy
      simp only [hx]
  | cons a pre ih =>
    intro fuel en keys groupings hy hpre hx hlt
    obtain ⟨n, rfl⟩ : ∃ n, fuel = n + 1 := ⟨fuel - 1, by simp at hlt; omega⟩
    simp only [List.cons_append, enumerator.yields] at hy
    unfold groupby_enumerable.drain
    split
    · rename_i en' heq
      rw [heq] at hy
      simp at hy
    · rename_i value en' heq
      rw [heq] at hy
      simp only [Option.some.injEq] at hy
      obtain ⟨rfl, hy'⟩ := hy
      obtain ⟨k, hk⟩ := hpre value (List.mem_cons_self _ _)
      simp only [hk]
      exact ih n en' _ _ hy' (fun y hyp => hpre y (List.mem_cons_of_mem _ hyp)) hx
        (by simp at hlt; omega)

theorem drain_returns {T TKey ε : Type} (Pred : TKey → TKey → Bool)
    (selector : T → Except ε TKey) (S : List T) :
    ∀ (fuel : Nat) (en : enumerator T) (keys : List TKey)
      (groupings : unordered_map TKey (List T)),
      en.yields S → (∀ x ∈ S, ∃ k, selector x = Except.ok k) → S.length < fuel →
      ∃ r, groupby_enumerable.drain Pred selector fuel en keys groupings
        = some (Except.ok r) := by
  induction S with
  | nil =>
    intro fuel en keys groupings hy _ hlt
    obtain ⟨n, rfl⟩ : ∃ n, fuel = n + 1 := ⟨fuel - 1, by simp at hlt; omega⟩
    simp only [enumerator.yields] at hy
    unfold groupby_enumerable.drain
    split
    · exact ⟨_, rfl⟩
    · rename_i value en' heq
      rw [heq] at hy
      simp at hy
  | cons a S ih =>
    intro fuel en keys groupings hy hsel hlt
    obtain ⟨n, rfl⟩ : ∃ n, fuel = n + 1 := ⟨fuel - 1, by simp at hlt; omega⟩
    simp only [enumerator.yields] at hy
    unfold groupby_enumerable.drain
    split
    · rename_i en' heq
      rw [heq] at hy
      simp at hy
    · rename_i value en' heq
      rw [heq] at hy
      simp only [Option.some.injEq] at hy
      obtain ⟨rfl, hy'⟩ := hy
      obtain ⟨k, hk⟩ := hsel value (List.mem_cons_self _ _)
      simp only [hk]
      exact ih n en' _ _ hy' (fun y hyp => hsel y (List.mem_cons_of_mem _ hyp))
        (by simp at hlt; omega)

theorem first_failure {T TKey ε : Type} (selector : T → Except ε TKey) (S : List T) :
    (∃ x ∈ S, ∃ e, selector x = Except.error e) →
    ∃ pre x post e, S = pre ++ x :: post ∧ (∀ y ∈ pre, ∃ k, selector y = Except.ok k) ∧
      selector x = Except.error e := by
  induction S with
  | nil => rintro ⟨x, hx, _⟩; simp at hx
  | cons a S ih =>
    rintro ⟨x, hx, e, he⟩
    cases ha : selector a with
    | error e' => exact ⟨[], a, S, e', rfl, by simp, ha⟩
    | ok k =>
      have hxS : x ∈ S := by
        rcases List.mem_cons.mp hx with rfl | h
        · rw [ha] at he; cases he
        · exact h
      obtain ⟨pre, y, post, e', hS, hpre, hy⟩ := ih ⟨x, hxS, e, he⟩
      refine ⟨a :: pre, y, post, e', by simp [hS], ?_, hy⟩
      intro z hz
      rcases List.mem_cons.mp hz with rfl | h
      · exact ⟨k, ha⟩
      · exact hpre z h

theorem all_ok_or_failure {T TKey ε : Type} (selector : T → Except ε TKey) (S : List T) :
    (∀ x ∈ S, ∃ k, selector x = Except.ok k) ∨ (∃ x ∈ S, ∃ e, selector x = Except.error e) := by
  induction S with
  | nil => left; simp
  | cons a S ih =>
    cases ha : selector a with
    | error e => exact Or.inr ⟨a, List.mem_cons_self _ _, e, ha⟩
    | ok k =>
      rcases ih with h | ⟨x, hx, e, he⟩
      · left
        intro z hz
        rcases List.mem_cons.mp hz with rfl | h'
        · exact ⟨k, ha⟩
        · exact h z h'
      · exact Or.inr ⟨x, List.mem_cons_of_mem _ hx, e, he⟩

theorem enumerate_error {T TKey ε : Type} {Pred : TKey → TKey → Bool}
    (q : groupby_enumerable T TKey ε Pred) (pre : List T) (x : T) (post : List T) (e : ε)
    (fuel : Nat) (hy : q.source.enumerate.1.yields (pre ++ x :: post))
    (hpre : ∀ y ∈ pre, ∃ k, q.selector y = Except.ok k)
    (hx : q.selector x = Except.error e) (hfuel : pre.length < fuel) :
    q.enumerate fuel = some (Except.error e) := by
  unfold groupby_enumerable.enumerate
  rw [drain_error Pred q.selector x post e pre fuel _ [] [] hy hpre hx hfuel]

theorem enumerate_returns {T TKey ε : Type} {Pred : TKey → TKey → Bool}
    (q : groupby_enumerable T TKey ε Pred) (S : List T) (fuel : Nat)
    (hy : q.source.enumerate.1.yields S) (hsel : ∀ x ∈ S, ∃ k, q.selector x = Except.ok k)
    (hfuel : S.length < fuel) :
    ∃ cur q', q.enumerate fuel = some (Except.ok (cur, q')) := by
  obtain ⟨r, hr⟩ := drain_returns Pred q.selector S fuel _ [] [] hy hsel hfuel
  unfold groupby_enumerable.enumerate
  rw [hr]
  exact ⟨_, _, rfl⟩

theorem enumerate_cursor {T TKey ε : Type} {Pred : TKey → TKey → Bool}
    (q : groupby_enumerable T TKey ε Pred) (fuel : Nat) (cur : groupby_enumerator T TKey)
    (q' : groupby_enumerable T TKey ε Pred)
    (h : q.enumerate fuel = some (Except.ok (cur, q'))) :
    cur = groupby_enumerator.ctor cur.source_ := by
  unfold groupby_enumerable.enumerate at h
  split at h
  · cases h
  · cases h
  · simp only [Option.some.injEq, Except.ok.injEq, Prod.mk.injEq] at h
    rw [← h.1]
    rfl

theorem after_range {T TKey : Type} (n : Nat) :
    ∀ (l src : List (grouping_enumerable T TKey)),
      groupby_enumerator.after n { range := l, source_ := src }
        = { range := l.drop n, source_ := src } := by
  induction n with
  | zero => intro l src; rfl
  | succ n ih =>
    intro l src
    cases l with
    | nil =>
      have := ih ([] : List (grouping_enumerable T TKey)) src
      simpa [groupby_enumerator.after, groupby_enumerator.next, stl_enumerator.next] using this
    | cons x xs =>
      have := ih xs src
      simpa [groupby_enumerator.after, groupby_enumerator.next, stl_enumerator.next] using this

theorem next_after_ctor {T TKey : Type} (groups : List (grouping_enumerable T TKey)) (n : Nat) :
    ((groupby_enumerator.ctor groups).after n).next.1 = groups.get? n := by
  unfold groupby_enumerator.ctor
  rw [after_range]
  cases h : groups.drop n with
  | nil =>
    have hle : groups.length ≤ n := List.drop_eq_nil_iff.mp h
    simp [groupby_enumerator.next, stl_enumerator.next, h, List.getElem?_eq_none hle]
  | cons x xs =>
    have hlt : n < groups.length := by
      by_contra hge
      rw [List.drop_eq_nil_iff.mpr (by omega)] at h
      cases h
    have hx : groups[n]? = some x := by
      rw [← List.head?_drop, h]
      rfl
    simp [groupby_enumerator.next, stl_enumerator.next, h, hx]


theorem stl_enumerable_reproduces {T : Type} (xs : List T) :
    (stl_enumerable xs).reproduces xs := by
  intro n
  have hfix : enumerable.after n (stl_enumerable xs) = stl_enumerable xs := by
    induction n with
    | zero => rfl
    | succ n ih => exact ih
  rw [hfix]
  exact stl_enumerable_yields xs

theorem grouping_after {T TKey : Type} (g : grouping_enumerable T TKey) (n : Nat) :
    grouping_enumerable.after n g = g := by
  induction n with
  | zero => rfl
  | succ n ih => exact ih

/-- C6: a failure of the key selector is neither caught nor deferred. On a finite source
`S`: if the selector throws `e` on an item and succeeds on all items before it, `enumerate()`
throws `e`; `enumerate()` throws if and only if the selector throws on some item of `S`, and
returns a cursor if and only if it throws on none; and every `next()` on a returned cursor
hands out what was materialised (or absent), which involves no selector call. -/
theorem C6_selector_failure_surfaces_from_enumerate {T TKey ε : Type}
    {Pred : TKey → TKey → Bool} (q : groupby_enumerable T TKey ε Pred) (S : List T)
    (fuel : Nat) (hy : q.source.enumerate.1.yields S) (hfuel : S.length < fuel) :
    (∀ pre x post e, S = pre ++ x :: post → (∀ y ∈ pre, ∃ k, q.selector y = Except.ok k) →
      q.selector x = Except.error e → q.enumerate fuel = some (Except.error e)) ∧
    ((∃ e, q.enumerate fuel = some (Except.error e)) ↔
      ∃ x ∈ S, ∃ e, q.selector x = Except.error e) ∧
    ((∃ cur q', q.enumerate fuel = some (Except.ok (cur, q'))) ↔
      ∀ x ∈ S, ∃ k, q.selector x = Except.ok k) ∧
    (∀ cur q', q.enumerate fuel = some (Except.ok (cur, q')) →
      ∀ n, (cur.after n).next.1 = cur.source_.get? n) := by
  have hfirst : ∀ pre x post e, S = pre ++ x :: post →
      (∀ y ∈ pre, ∃ k, q.selector y = Except.ok k) →
      q.selector x = Except.error e → q.enumerate fuel = some (Except.error e) := by
    intro pre x post e hS hpre hx
    subst hS
    exact enumerate_error q pre x post e fuel hy hpre hx
      (by simp at hfuel; omega)
  have hfail : (∃ x ∈ S, ∃ e, q.selector x = Except.error e) →
      ∃ e, q.enumerate fuel = some (Except.error e) := by
    intro h
    obtain ⟨pre, x, post, e, hS, hpre, hx⟩ := first_failure q.selector S h
    exact ⟨e, hfirst pre x post e hS hpre hx⟩
  refine ⟨hfirst, ⟨?_, hfail⟩, ⟨?_, ?_⟩, ?_⟩
  · rintro ⟨e, he⟩
    rcases all_ok_or_failure q.selector S with hok | hbad
    · obtain ⟨cur, q', hr⟩ := enumerate_returns q S fuel hy hok hfuel
      rw [hr] at he
      cases he
    · exact hbad
  · rintro ⟨cur, q', hr⟩
    rcases all_ok_or_failure q.selector S with hok | hbad
    · exact hok
    · obtain ⟨e, he⟩ := hfail hbad
      rw [hr] at he
      cases he
  · intro hok
    exact enumerate_returns q S fuel hy hok hfuel
  · intro cur q' hr n
    rw [enumerate_cursor q fuel cur q' hr]
    exact next_after_ctor _ n

/-- C6 at the items 1, 7, 2, 9 with a selector that throws on 7 and on 9: `enumerate()`
throws the error of 7, the first failing item. -/
theorem C6_selector_failure_surfaces_from_enumerate_witness :
    failing_query.enumerate 5 = some (Except.error "seven") :=
  (C6_selector_failure_surfaces_from_enumerate failing_query [1, 7, 2, 9] 5
    (stl_enumerable_yields _) (by decide)).1 [1] 7 [2, 9] "seven" rfl
    (by intro y hy; exact ⟨1, by rw [List.mem_singleton.mp hy]; rfl⟩) rfl

/-! ## C7: the result cursor -/

/-- C7: the cursor returned by `enumerate()` is a plain forward cursor over the `g`
materialised Groupings: call `i + 1` of `next()` returns Grouping `i` for `i < g`, call
`g + 1` returns absent, and so does every later call (the one 100 calls later included). -/
theorem C7_result_cursor_idempotent_exhaustion {T TKey ε : Type} {Pred : TKey → TKey → Bool}
    (q : groupby_enumerable T TKey ε Pred) (fuel : Nat) (cur : groupby_enumerator T TKey)
    (q' : groupby_enumerable T TKey ε Pred)
    (h : q.enumerate fuel = some (Except.ok (cur, q'))) :
    (∀ i (hi : i < cur.source_.length),
      (cur.after i).next.1 = some (cur.source_.get ⟨i, hi⟩)) ∧
    (cur.after cur.source_.length).next.1 = none ∧
    (∀ n, 1 ≤ n → (cur.after (cur.source_.length + n)).next.1 = none) ∧
    (cur.after (cur.source_.length + 100)).next.1 = none := by
  have hcur := enumerate_cursor q fuel cur q' h
  have hnext : ∀ n, (cur.after n).next.1 = cur.source_.get? n := by
    intro n
    rw [hcur]
    exact next_after_ctor _ n
  refine ⟨?_, ?_, ?_, ?_⟩
  · intro i hi
    rw [hnext i]
    simp [List.getElem?_eq_getElem hi]
  · rw [hnext]; simp
  · intro n _
    rw [hnext]; simp
  · rw [hnext]; simp

/-- C7 at the spec's example: three Groupings in order, then absent on calls 4 and 104. -/
theorem C7_result_cursor_idempotent_exhaustion_witness :
    ∃ cur q', example_query.enumerate 6 = some (Except.ok (cur, q')) ∧
      cur.source_.length = 3 ∧
      (cur.after 0).next.1 = cur.source_.get? 0 ∧
      (cur.after 1).next.1 = cur.source_.get? 1 ∧
      (cur.after 2).next.1 = cur.source_.get? 2 ∧
      (cur.after 3).next.1 = none ∧ (cur.after 103).next.1 = none := by
  have hrun := enumerate_ok example_query Prod.fst example_items 6 example_query_yields
    (fun _ _ => rfl) (by decide)
  have hlen : (expected_groups Prod.fst example_items).length = 3 := by decide
  obtain ⟨h1, h2, _, h4⟩ := C7_result_cursor_idempotent_exhaustion example_query 6 _ _ hrun
  have hsrc : (groupby_enumerator.ctor (expected_groups Prod.fst example_items)).source_
      = expected_groups Prod.fst example_items := rfl
  have hlen' : (groupby_enumerator.ctor (expected_groups Prod.fst example_items)).source_.length
      = 3 := hlen
  rw [hlen'] at h2 h4
  refine ⟨_, _, hrun, hlen, ?_, ?_, ?_, h2, h4⟩
  · rw [h1 0 (by rw [hlen']; decide)]; simp [List.getElem?_eq_getElem, hlen]
  · rw [h1 1 (by rw [hlen']; decide)]; simp [List.getElem?_eq_getElem, hlen]
  · rw [h1 2 (by rw [hlen']; decide)]; simp [List.getElem?_eq_getElem, hlen]


/-! ## C8: a Grouping is a re-enumerable snapshot -/

/-- C8: for every key and item list `xs`, the Grouping `from(key, xs)` is a re-enumerable
snapshot: call `n + 1` of `enumerate()`, for every `n`, returns a cursor that yields exactly
`xs` in order (the same cursor as the first call returns), and the Grouping after any number
of enumerations is the Grouping built, with key `key` and items `xs`. -/
theorem C8_grouping_reenumerable_snapshot {T TKey : Type} (key : TKey) (xs : List T) (n : Nat) :
    ((grouping_enumerable.from key xs).after n).enumerate.1.toEnumerator.yields xs ∧
    ((grouping_enumerable.from key xs).after n).enumerate.1
      = (grouping_enumerable.from key xs).enumerate.1 ∧
    ((grouping_enumerable.from key xs).after n).enumerate.2 = grouping_enumerable.from key xs ∧
    (grouping_enumerable.from key xs).after n = grouping_enumerable.from key xs ∧
    (grouping_enumerable.from key xs).key = key ∧
    (grouping_enumerable.from key xs).items_ = xs := by
  rw [grouping_after]
  exact ⟨stl_enumerator_yields xs, rfl, rfl, rfl, rfl, rfl⟩

/-! ## C9: the group-by sequence is re-enumerable -/

/-- C9: over a source whose every `enumerate()` reproduces the same finite item list `S`,
two successive `enumerate()` calls on the same group-by sequence return cursors over the
same list of Groupings (same keys, same items per key, same order, namely the groups of
`S`). Each cursor owns the vector built by its own call, so the two agree call by call and
what one produces at call `n` does not depend on how far the other has been pulled. -/
theorem C9_group_by_reenumerable {T TKey ε : Type} [DecidableEq TKey]
    (q : groupby_enumerable T TKey ε std_equal_to) (K : T → TKey) (S : List T) (fuel : Nat)
    (hrep : q.source.reproduces S) (hsel : ∀ x ∈ S, q.selector x = Except.ok (K x))
    (hfuel : S.length < fuel) :
    ∃ c₁ q₁ c₂ q₂ groups, q.enumerate fuel = some (Except.ok (c₁, q₁)) ∧
      q₁.enumerate fuel = some (Except.ok (c₂, q₂)) ∧
      c₁.source_ = groups ∧ c₂.source_ = groups ∧
      c₁.toEnumerator.yields groups ∧ c₂.toEnumerator.yields groups ∧
      groups = expected_groups K S ∧
      (∀ n, (c₁.after n).next.1 = (c₂.after n).next.1) ∧
      (∀ n, (c₁.after n).next.1 = groups.get? n) ∧
      (∀ n, (c₂.after n).next.1 = groups.get? n) := by
  have h₁ := enumerate_ok q K S fuel (hrep 0) hsel hfuel
  have h₂ := enumerate_ok { q with source := q.source.enumerate.2 } K S fuel (hrep 1) hsel hfuel
  refine ⟨_, _, _, _, expected_groups K S, h₁, h₂, rfl, rfl, ctor_yields _, ctor_yields _, rfl,
    fun n => rfl, fun n => next_after_ctor _ n, fun n => next_after_ctor _ n⟩

/-- C9 at the spec's example: both enumerations hold the Groupings a:[1,3], b:[2,5], c:[4]. -/
theorem C9_group_by_reenumerable_witness :
    ∃ c₁ q₁ c₂ q₂, example_query.enumerate 6 = some (Except.ok (c₁, q₁)) ∧
      q₁.enumerate 6 = some (Except.ok (c₂, q₂)) ∧
      c₁.source_ = c₂.source_ ∧
      c₂.source_ = [{ items_ := [("a", 1), ("a", 3)], key := "a" },
        { items_ := [("b", 2), ("b", 5)], key := "b" }, { items_ := [("c", 4)], key := "c" }] := by
  obtain ⟨c₁, q₁, c₂, q₂, groups, h₁, h₂, hs₁, hs₂, _, _, hg, _⟩ :=
    C9_group_by_reenumerable example_query Prod.fst example_items 6
      (stl_enumerable_reproduces example_items) (fun _ _ => rfl) (by decide)
  refine ⟨c₁, q₁, c₂, q₂, h₁, h₂, hs₁.trans hs₂.symm, ?_⟩
  rw [hs₂, hg]
  decide

/-! ## C10: sharing a Grouping -/

/-- C10: for every Grouping `g`, `share()` returns a sequence with the key of `g` and a copy
of the items of `g`; enumerating it gives the same cursor, yielding the same items in the
same order, as enumerating `g`; and `g` is unchanged by the call. -/
theorem C10_grouping_share_copies {T TKey : Type} (g : grouping_enumerable T TKey) :
    g.share.1.key = g.key ∧ g.share.1.items_ = g.items_ ∧ g.share.2 = g ∧
    g.share.1.enumerate.1 = g.enumerate.1 ∧
    g.enumerate.1.toEnumerator.yields g.items_ ∧
    g.share.1.enumerate.1.toEnumerator.yields g.items_ :=
  ⟨rfl, rfl, rfl, rfl, stl_enumerator_yields _, stl_enumerator_yields _⟩

/-! ## Lemmas on `expected_groups` -/

theorem drain_keys_groupings {T TKey ε : Type} [DecidableEq TKey]
    (q : groupby_enumerable T TKey ε std_equal_to) (K : T → TKey) (S : List T) (fuel : Nat)
    (hy : q.source.enumerate.1.yields S) (hsel : ∀ x ∈ S, q.selector x = Except.ok (K x))
    (hfuel : S.length < fuel) :
    groupby_enumerable.drain std_equal_to q.selector fuel q.source.enumerate.1 [] []
      = some (Except.ok (firstSeen (S.map K),
          (firstSeen (S.map K)).map (fun k => (k, S.filter (fun x => K x = k))))) := by
  rw [drain_ok std_equal_to q.selector K S fuel _ [] [] hy hsel hfuel, foldl_drain_step]

theorem mem_expected_groups {T TKey : Type} [DecidableEq TKey] (K : T → TKey) (S : List T)
    (g : grouping_enumerable T TKey) (hg : g ∈ expected_groups K S) :
    g.key ∈ S.map K ∧ g.items_ = S.filter (fun x => K x = g.key) := by
  obtain ⟨k, hk, rfl⟩ := List.mem_map.mp hg
  exact ⟨(mem_firstSeen _ _).mp hk, rfl⟩

theorem head?_filter_find? {T : Type} (p : T → Bool) (l : List T) :
    (l.filter p).head? = l.find? p := by
  induction l with
  | nil => rfl
  | cons a l ih =>
    by_cases h : p a = true
    · simp [List.filter_cons, List.find?_cons, h]
    · have h' : p a = false := by simpa using h
      simp [List.filter_cons, List.find?_cons, h', ih]

theorem flatMap_filter_perm {T TKey : Type} [DecidableEq TKey] (K : T → TKey) (S : List T)
    (ks : List TKey) (hnd : ks.Nodup) :
    (ks.flatMap (fun k => S.filter (fun x => K x = k))).Perm
      (S.filter (fun x => decide (K x ∈ ks))) := by
  induction ks with
  | nil => simp
  | cons k ks ih =>
    have hnd' := List.nodup_cons.mp hnd
    have hsplit := List.filter_append_perm (fun x => decide (K x = k))
      (S.filter (fun x => decide (K x ∈ k :: ks)))
    have h₁ : (S.filter (fun x => decide (K x ∈ k :: ks))).filter (fun x => decide (K x = k))
        = S.filter (fun x => decide (K x = k)) := by
      rw [List.filter_filter]
      apply List.filter_congr
      intro x _
      by_cases hx : K x = k <;> simp [hx]
    have h₂ : (S.filter (fun x => decide (K x ∈ k :: ks))).filter
        (fun x => !decide (K x = k)) = S.filter (fun x => decide (K x ∈ ks)) := by
      rw [List.filter_filter]
      apply List.filter_congr
      intro x _
      by_cases hx : K x = k
      · have hk : k ∉ ks := hnd'.1
        simp [hx, hk]
      · simp [hx]
    rw [h₁, h₂] at hsplit
    rw [List.flatMap_cons]
    exact (List.Perm.append (List.Perm.refl _) (ih hnd'.2)).trans hsplit

theorem expected_groups_perm {T TKey : Type} [DecidableEq TKey] (K : T → TKey) (S : List T) :
    ((expected_groups K S).flatMap (fun g => g.items_)).Perm S := by
  have hflat : (expected_groups K S).flatMap (fun g => g.items_)
      = (firstSeen (S.map K)).flatMap (fun k => S.filter (fun x => K x = k)) := by
    unfold expected_groups
    rw [List.flatMap_map]
  have hall : S.filter (fun x => decide (K x ∈ firstSeen (S.map K))) = S := by
    rw [List.filter_eq_self]
    intro x hx
    simpa [mem_firstSeen] using List.mem_map_of_mem K hx
  rw [hflat]
  have := flatMap_filter_perm K S (firstSeen (S.map K)) (firstSeen_nodup _)
  rwa [hall] at this

/-! ## C11: keys are unique -/

/-- C11: on a finite source, no two Groupings produced by one `enumerate()` call have equal
keys, and the first-seen key list that the drain loop builds has no duplicates. -/
theorem C11_keys_unique {T TKey ε : Type} [DecidableEq TKey]
    (q : groupby_enumerable T TKey ε std_equal_to) (K : T → TKey) (S : List T) (fuel : Nat)
    (hy : q.source.enumerate.1.yields S) (hsel : ∀ x ∈ S, q.selector x = Except.ok (K x))
    (hfuel : S.length < fuel) :
    (∃ cur q' groups, q.enumerate fuel = some (Except.ok (cur, q')) ∧
      cur.source_ = groups ∧ cur.toEnumerator.yields groups ∧
      groups.Pairwise (fun g h => g.key ≠ h.key)) ∧
    (∃ keys groupings,
      groupby_enumerable.drain std_equal_to q.selector fuel q.source.enumerate.1 [] []
        = some (Except.ok (keys, groupings)) ∧ keys.Nodup) := by
  refine ⟨⟨_, _, expected_groups K S, enumerate_ok q K S fuel hy hsel hfuel, rfl,
    ctor_yields _, ?_⟩, ⟨_, _, drain_keys_groupings q K S fuel hy hsel hfuel,
    firstSeen_nodup _⟩⟩
  unfold expected_groups
  rw [List.pairwise_map]
  exact firstSeen_nodup _

/-- C11 at the spec's example: the three Groupings have pairwise different keys. -/
theorem C11_keys_unique_witness :
    ∃ cur q' groups, example_query.enumerate 6 = some (Except.ok (cur, q')) ∧
      cur.source_ = groups ∧ groups.length = 3 ∧
      groups.Pairwise (fun g h => g.key ≠ h.key) := by
  obtain ⟨⟨cur, q', groups, h1, h2, h3, h4⟩, _⟩ :=
    C11_keys_unique example_query Prod.fst example_items 6
      example_query_yields (fun _ _ => rfl) (by decide)
  refine ⟨cur, q', groups, h1, h2, ?_, h4⟩
  have hrun := enumerate_ok example_query Prod.fst example_items 6 example_query_yields
    (fun _ _ => rfl) (by decide)
  rw [hrun] at h1
  simp only [Option.some.injEq, Except.ok.injEq, Prod.mk.injEq] at h1
  rw [← h2, ← h1.1]
  decide

/-! ## C14: nothing is lost or duplicated -/

/-- C14: group-by loses and duplicates nothing. On a finite source `S` the sizes of the
Groupings produced by `enumerate()` sum to the length of `S`, the concatenation of all
buckets is a permutation of `S`, and every item of `S`, whatever its value (the zero or
default value of `T` included), is in a bucket: the drain ends only on an absent `next()`. -/
theorem C14_nothing_lost_or_duplicated {T TKey ε : Type} [DecidableEq TKey]
    (q : groupby_enumerable T TKey ε std_equal_to) (K : T → TKey) (S : List T) (fuel : Nat)
    (hy : q.source.enumerate.1.yields S) (hsel : ∀ x ∈ S, q.selector x = Except.ok (K x))
    (hfuel : S.length < fuel) :
    ∃ cur q' groups, q.enumerate fuel = some (Except.ok (cur, q')) ∧
      cur.source_ = groups ∧ cur.toEnumerator.yields groups ∧
      (groups.map (fun g => g.items_.length)).sum = S.length ∧
      (groups.flatMap (fun g => g.items_)).Perm S ∧
      (∀ x ∈ S, ∃ g ∈ groups, x ∈ g.items_) := by
  have hperm := expected_groups_perm K S
  refine ⟨_, _, expected_groups K S, enumerate_ok q K S fuel hy hsel hfuel, rfl,
    ctor_yields _, ?_, hperm, ?_⟩
  · have hlen := hperm.length_eq
    rw [List.length_flatMap] at hlen
    exact hlen
  · intro x hx
    have hmem : x ∈ (expected_groups K S).flatMap (fun g => g.items_) := hperm.mem_iff.mpr hx
    obtain ⟨g, hg, hxg⟩ := List.mem_flatMap.mp hmem
    exact ⟨g, hg, hxg⟩

/-- C14 at the items 0, 5, 0, 7 keyed by parity: both zeros are drained and bucketed, and
the drain goes on past them. -/
theorem C14_nothing_lost_or_duplicated_witness :
    ∃ cur q', groupby_enumerable.enumerate 5
        ((stl_enumerable [0, 5, 0, 7]).group_by std_equal_to
          (total_selector (fun x => x % 2) : Nat → Except Unit Nat))
          = some (Except.ok (cur, q')) ∧
      cur.source_ = [{ items_ := [0, 0], key := 0 }, { items_ := [5, 7], key := 1 }] ∧
      (cur.source_.map (fun g => g.items_.length)).sum = 4 ∧
      (cur.source_.flatMap (fun g => g.items_)).Perm [0, 5, 0, 7] := by
  obtain ⟨cur, q', groups, h1, h2, _, h4, h5, _⟩ :=
    C14_nothing_lost_or_duplicated
      ((stl_enumerable [0, 5, 0, 7]).group_by std_equal_to
        (total_selector (fun x => x % 2) : Nat → Except Unit Nat))
      (fun x => x % 2) [0, 5, 0, 7] 5 (stl_enumerable_yields _) (fun _ _ => rfl) (by decide)
  have hrun := enumerate_ok
    ((stl_enumerable [0, 5, 0, 7]).group_by std_equal_to
      (total_selector (fun x => x % 2) : Nat → Except Unit Nat))
    (fun x => x % 2) [0, 5, 0, 7] 5 (stl_enumerable_yields _) (fun _ _ => rfl) (by decide)
  have hcur := h1.symm.trans hrun
  simp only [Option.some.injEq, Except.ok.injEq, Prod.mk.injEq] at hcur
  have hsrc : cur.source_
      = [{ items_ := [0, 0], key := 0 }, { items_ := [5, 7], key := 1 }] := by
    rw [hcur.1]
    decide
  rw [← h2] at h4 h5
  exact ⟨cur, q', h1, hsrc, h4, h5⟩

/-! ## C15: no Grouping is empty -/

/-- C15: on a finite source, every Grouping emitted by `enumerate()` contains at least one
item. -/
theorem C15_groupings_non_empty {T TKey ε : Type} [DecidableEq TKey]
    (q : groupby_enumerable T TKey ε std_equal_to) (K : T → TKey) (S : List T) (fuel : Nat)
    (hy : q.source.enumerate.1.yields S) (hsel : ∀ x ∈ S, q.selector x = Except.ok (K x))
    (hfuel : S.length < fuel) :
    ∃ cur q' groups, q.enumerate fuel = some (Except.ok (cur, q')) ∧
      cur.source_ = groups ∧ cur.toEnumerator.yields groups ∧
      (∀ g ∈ groups, g.items_ ≠ [] ∧ 0 < g.items_.length) := by
  refine ⟨_, _, expected_groups K S, enumerate_ok q K S fuel hy hsel hfuel, rfl,
    ctor_yields _, ?_⟩
  intro g hg
  obtain ⟨hkey, hitems⟩ := mem_expected_groups K S g hg
  obtain ⟨x, hx, hxk⟩ := List.mem_map.mp hkey
  have hmem : x ∈ g.items_ := by
    rw [hitems]
    exact List.mem_filter.mpr ⟨hx, by simpa using hxk⟩
  have hne : g.items_ ≠ [] := List.ne_nil_of_mem hmem
  exact ⟨hne, List.length_pos.mpr hne⟩

/-- C15 at the spec's example: each of the Groupings produced has an item. -/
theorem C15_groupings_non_empty_witness :
    ∃ cur q' groups, example_query.enumerate 6 = some (Except.ok (cur, q')) ∧
      cur.source_ = groups ∧ (∀ g ∈ groups, g.items_ ≠ []) := by
  obtain ⟨cur, q', groups, h1, h2, _, h4⟩ :=
    C15_groupings_non_empty example_query Prod.fst example_items 6
      example_query_yields (fun _ _ => rfl) (by decide)
  exact ⟨cur, q', groups, h1, h2, fun g hg => (h4 g hg).1⟩

/-! ## C16: the key of a Grouping -/

/-- C16: on a finite source `S`, the key stored in each Grouping emitted by `enumerate()` is
the selector's value on that Grouping's first item, and that item is the first item of `S`
with this key (the item that introduced the key). -/
theorem C16_key_is_selector_of_first_item {T TKey ε : Type} [DecidableEq TKey]
    (q : groupby_enumerable T TKey ε std_equal_to) (K : T → TKey) (S : List T) (fuel : Nat)
    (hy : q.source.enumerate.1.yields S) (hsel : ∀ x ∈ S, q.selector x = Except.ok (K x))
    (hfuel : S.length < fuel) :
    ∃ cur q' groups, q.enumerate fuel = some (Except.ok (cur, q')) ∧
      cur.source_ = groups ∧ cur.toEnumerator.yields groups ∧
      (∀ g ∈ groups, ∃ x, g.items_.head? = some x ∧ q.selector x = Except.ok g.key ∧
        g.key = K x ∧ S.find? (fun y => K y = g.key) = some x) := by
  refine ⟨_, _, expected_groups K S, enumerate_ok q K S fuel hy hsel hfuel, rfl,
    ctor_yields _, ?_⟩
  intro g hg
  obtain ⟨hkey, hitems⟩ := mem_expected_groups K S g hg
  have hhead : g.items_.head? = S.find? (fun y => decide (K y = g.key)) := by
    rw [hitems]
    exact head?_filter_find? _ S
  cases hfind : S.find? (fun y => decide (K y = g.key)) with
  | none =>
    obtain ⟨x, hx, hxk⟩ := List.mem_map.mp hkey
    have := List.find?_eq_none.mp hfind x hx
    simp [hxk] at this
  | some x =>
    have hxk : K x = g.key := by simpa using List.find?_some hfind
    have hxS : x ∈ S := List.mem_of_find?_eq_some hfind
    refine ⟨x, by rw [hhead, hfind], ?_, hxk.symm, rfl⟩
    rw [hsel x hxS, hxk]

/-- C16 at the spec's example: the first items of the Groupings are ("a",1), ("b",2) and
("c",4), and the keys are their first components. -/
theorem C16_key_is_selector_of_first_item_witness :
    ∃ cur q' groups, example_query.enumerate 6 = some (Except.ok (cur, q')) ∧
      cur.source_ = groups ∧
      groups.map (fun g => (g.key, g.items_.head?))
        = [("a", some ("a", 1)), ("b", some ("b", 2)), ("c", some ("c", 4))] ∧
      (∀ g ∈ groups, ∃ x, g.items_.head? = some x ∧ g.key = x.1) := by
  obtain ⟨cur, q', groups, h1, h2, _, h4⟩ :=
    C16_key_is_selector_of_first_item example_query Prod.fst example_items 6
      example_query_yields (fun _ _ => rfl) (by decide)
  have hrun := enumerate_ok example_query Prod.fst example_items 6 example_query_yields
    (fun _ _ => rfl) (by decide)
  have hcur := h1.symm.trans hrun
  simp only [Option.some.injEq, Except.ok.injEq, Prod.mk.injEq] at hcur
  refine ⟨cur, q', groups, h1, h2, ?_, ?_⟩
  · rw [← h2, hcur.1]
    decide
  · intro g hg
    obtain ⟨x, hx, _, hk, _⟩ := h4 g hg
    exact ⟨x, hx, hk⟩

/-! ## Lemmas on the recorded calls -/

theorem drain_traced_erase {T TKey ε : Type} (Pred : TKey → TKey → Bool)
    (selector : T → Except ε TKey) (fuel : Nat) :
    ∀ (en : enumerator T) (keys : List TKey) (groupings : unordered_map TKey (List T))
      (log : List (call T)),
      (groupby_enumerable.drain_traced Pred selector fuel en keys groupings log).map Prod.fst
        = groupby_enumerable.drain Pred selector fuel en keys groupings := by
  induction fuel with
  | zero => intro en keys groupings log; rfl
  | succ n ih =>
    intro en keys groupings log
    unfold groupby_enumerable.drain_traced groupby_enumerable.drain
    split
    · rfl
    · rename_i value en' heq
      cases hsel : selector value with
      | error e => rfl
      | ok key => exact ih _ _ _ _

theorem enumerate_traced_erase {T TKey ε : Type} {Pred : TKey → TKey → Bool}
    (q : groupby_enumerable T TKey ε Pred) (fuel : Nat) :
    (q.enumerate_traced fuel).map Prod.fst = q.enumerate fuel := by
  unfold groupby_enumerable.enumerate_traced groupby_enumerable.enumerate
  rw [← drain_traced_erase Pred q.selector fuel _ [] [] [call.source_enumerate]]
  cases groupby_enumerable.drain_traced Pred q.selector fuel q.source.enumerate.1 [] []
      [call.source_enumerate] with
  | none => rfl
  | some r =>
    obtain ⟨res, log⟩ := r
    cases res with
    | error e => rfl
    | ok kg => rfl

theorem drain_traced_log {T TKey ε : Type} (Pred : TKey → TKey → Bool)
    (selector : T → Except ε TKey) (S : List T) :
    ∀ (fuel : Nat) (en : enumerator T) (keys : List TKey)
      (groupings : unordered_map TKey (List T)) (log : List (call T)),
      en.yields S → (∀ x ∈ S, ∃ k, selector x = Except.ok k) → S.length < fuel →
      ∃ r, groupby_enumerable.drain_traced Pred selector fuel en keys groupings log
        = some (Except.ok r, log
            ++ S.flatMap (fun x => [call.cursor_next (some x), call.selector_call x])
            ++ [call.cursor_next none]) := by
  induction S with
  | nil =>
    intro fuel en keys groupings log hy _ hlt
    obtain ⟨n, rfl⟩ : ∃ n, fuel = n + 1 := ⟨fuel - 1, by simp at hlt; omega⟩
    simp only [enumerator.yields] at hy
    unfold groupby_enumerable.drain_traced
    split
    · exact ⟨(keys, groupings), by simp⟩
    · rename_i value en' heq
      rw [heq] at hy
      simp at hy
  | cons a S ih =>
    intro fuel en keys groupings log hy hsel hlt
    obtain ⟨n, rfl⟩ : ∃ n, fuel = n + 1 := ⟨fuel - 1, by simp at hlt; omega⟩
    simp only [enumerator.yields] at hy
    unfold groupby_enumerable.drain_traced
    split
    · rename_i en' heq
      rw [heq] at hy
      simp at hy
    · rename_i value en' heq
      rw [heq] at hy
      simp only [Option.some.injEq] at hy
      obtain ⟨rfl, hy'⟩ := hy
      obtain ⟨k, hk⟩ := hsel value (List.mem_cons_self _ _)
      simp only [hk]
      obtain ⟨r, hr⟩ := ih n en' _ _
        (log ++ [call.cursor_next (some value), call.selector_call value]) hy'
        (fun y hyp => hsel y (List.mem_cons_of_mem _ hyp)) (by simp at hlt; omega)
      exact ⟨r, by rw [hr]; simp⟩

theorem log_selected {T : Type} (S : List T) :
    (call.source_enumerate
        :: S.flatMap (fun x => [call.cursor_next (some x), call.selector_call x])
        ++ [call.cursor_next none]).filterMap call.selected = S := by
  induction S with
  | nil => simp [call.selected]
  | cons a S ih =>
    simp only [List.cons_append, List.filterMap_cons, call.selected, List.flatMap_cons,
      List.append_assoc, List.nil_append] at ih ⊢
    rw [ih]

theorem log_pulled {T : Type} (S : List T) :
    (call.source_enumerate
        :: S.flatMap (fun x => [call.cursor_next (some x), call.selector_call x])
        ++ [call.cursor_next none]).filterMap call.pulled = S.map some ++ [none] := by
  induction S with
  | nil => simp [call.pulled]
  | cons a S ih =>
    simp only [List.cons_append, List.filterMap_cons, call.pulled, List.flatMap_cons,
      List.append_assoc, List.nil_append, List.map_cons] at ih ⊢
    rw [ih]

theorem log_source_enumerate {T : Type} (S : List T) :
    ((call.source_enumerate
        :: S.flatMap (fun x => [call.cursor_next (some x), call.selector_call x])
        ++ [call.cursor_next none]).filter call.is_source_enumerate).length = 1 := by
  induction S with
  | nil => simp [call.is_source_enumerate]
  | cons a S ih =>
    simp only [List.cons_append, List.filter_cons, call.is_source_enumerate, List.flatMap_cons,
      List.append_assoc, List.nil_append, if_true, List.length_cons, Bool.false_eq_true,
      if_false] at ih ⊢
    exact ih

/-! ## C12: the drain is confined to `enumerate()` -/

/-- C12: constructing the sequence with `from` calls nothing and `group_by` only calls
`share()` on the source: no cursor is pulled and the selector is not called. One
`enumerate()` on a finite source `S` calls `enumerate()` on the source exactly once, then
pulls that cursor until its first absent result, calling the selector exactly once on each
pulled item right after it was pulled, in source order. Every later `next()` on the result
cursor calls neither the source nor the selector. -/
theorem C12_drain_confined_to_enumerate {T TKey ε : Type} [DecidableEq TKey]
    {Pred : TKey → TKey → Bool} (q : groupby_enumerable T TKey ε Pred) (S : List T)
    (fuel : Nat) (hy : q.source.enumerate.1.yields S)
    (hsel : ∀ x ∈ S, ∃ k, q.selector x = Except.ok k) (hfuel : S.length < fuel) :
    (∀ (P : TKey → TKey → Bool) (source : enumerable T) (selector : T → Except ε TKey),
      (groupby_enumerable.from_traced P source selector).2 = [] ∧
      (enumerable.group_by_traced P source selector).2 = [call.source_share]) ∧
    (∃ cur q' log, q.enumerate_traced fuel = some (Except.ok (cur, q'), log) ∧
      q.enumerate fuel = some (Except.ok (cur, q')) ∧
      log = call.source_enumerate
        :: S.flatMap (fun x => [call.cursor_next (some x), call.selector_call x])
        ++ [call.cursor_next none] ∧
      (log.filter call.is_source_enumerate).length = 1 ∧
      log.filterMap call.pulled = S.map some ++ [none] ∧
      log.filterMap call.selected = S ∧
      (∀ n, ((cur.after n).next_traced T).2 = [])) := by
  refine ⟨fun P source selector => ⟨rfl, rfl⟩, ?_⟩
  obtain ⟨r, hr⟩ := drain_traced_log Pred q.selector S fuel q.source.enumerate.1 [] []
    [call.source_enumerate] hy hsel hfuel
  have htraced : q.enumerate_traced fuel
      = some (Except.ok (groupby_enumerator.ctor (groupby_enumerable.materialize Pred r.1 r.2),
          { q with source := q.source.enumerate.2 }),
        call.source_enumerate
          :: S.flatMap (fun x => [call.cursor_next (some x), call.selector_call x])
          ++ [call.cursor_next none]) := by
    unfold groupby_enumerable.enumerate_traced
    rw [hr]
    rfl
  refine ⟨_, _, _, htraced, ?_, rfl, log_source_enumerate S, log_pulled S, log_selected S,
    fun n => rfl⟩
  rw [← enumerate_traced_erase, htraced]
  rfl

/-- C12 at the spec's example: one `enumerate()` on the source, six pulls of which the last
is absent, and the selector called on the five items in source order. -/
theorem C12_drain_confined_to_enumerate_witness :
    ∃ cur q' log, example_query.enumerate_traced 6 = some (Except.ok (cur, q'), log) ∧
      (log.filter call.is_source_enumerate).length = 1 ∧
      log.filterMap call.pulled = [some ("a", 1), some ("b", 2), some ("a", 3),
        some ("c", 4), some ("b", 5), none] ∧
      log.filterMap call.selected = [("a", 1), ("b", 2), ("a", 3), ("c", 4), ("b", 5)] ∧
      ((cur.after 0).next_traced (String × Nat)).2 = [] := by
  obtain ⟨_, cur, q', log, h1, _, _, h4, h5, h6, h7⟩ :=
    C12_drain_confined_to_enumerate example_query example_items 6 example_query_yields
      (fun x _ => ⟨x.1, rfl⟩) (by decide)
  exact ⟨cur, q', log, h1, h4, h5, h6, h7 0⟩

/-! ## C13: sharing the group-by sequence -/

/-- C13: `share()` on a group-by sequence `q` forwards the same upstream source and the same
selector and calls nothing (no drain). Over a source whose every `enumerate()` reproduces
the item list `S`, enumerating `q.share()` returns the same list of Groupings (keys, items,
order) as enumerating `q`, also when the share is enumerated after `q` has been. -/
theorem C13_share_forwards_source_and_selector {T TKey ε : Type} [DecidableEq TKey]
    (q : groupby_enumerable T TKey ε std_equal_to) (K : T → TKey) (S : List T) (fuel : Nat)
    (hrep : q.source.reproduces S) (hsel : ∀ x ∈ S, q.selector x = Except.ok (K x))
    (hfuel : S.length < fuel) :
    q.share.source = q.source ∧ q.share.selector = q.selector ∧
    (q.share_traced).2 = [] ∧
    (∃ c q₁ c' q₁' groups, q.enumerate fuel = some (Except.ok (c, q₁)) ∧
      q.share.enumerate fuel = some (Except.ok (c', q₁')) ∧
      c.source_ = groups ∧ c'.source_ = groups ∧
      c.toEnumerator.yields groups ∧ c'.toEnumerator.yields groups ∧
      groups = expected_groups K S ∧
      (∃ c'' q₂, q₁.share.enumerate fuel = some (Except.ok (c'', q₂)) ∧
        c''.source_ = groups ∧ c''.toEnumerator.yields groups)) := by
  have h₁ := enumerate_ok q K S fuel (hrep 0) hsel hfuel
  have h₂ := enumerate_ok q.share K S fuel (hrep 0) hsel hfuel
  have h₃ := enumerate_ok (groupby_enumerable.share
    ({ q with source := q.source.enumerate.2 } : groupby_enumerable T TKey ε std_equal_to))
    K S fuel (hrep 1) hsel hfuel
  exact ⟨rfl, rfl, rfl, _, _, _, _, expected_groups K S, h₁, h₂, rfl, rfl, ctor_yields _,
    ctor_yields _, rfl, _, _, h₃, rfl, ctor_yields _⟩

/-- C13 at the spec's example: the share yields the Groupings a:[1,3], b:[2,5], c:[4], as
the sequence itself does. -/
theorem C13_share_forwards_source_and_selector_witness :
    ∃ c q₁ c' q₁', example_query.enumerate 6 = some (Except.ok (c, q₁)) ∧
      example_query.share.enumerate 6 = some (Except.ok (c', q₁')) ∧
      c.source_ = c'.source_ ∧
      c'.source_ = [{ items_ := [("a", 1), ("a", 3)], key := "a" },
        { items_ := [("b", 2), ("b", 5)], key := "b" }, { items_ := [("c", 4)], key := "c" }] := by
  obtain ⟨_, _, _, c, q₁, c', q₁', groups, h₁, h₂, hs₁, hs₂, _, _, hg, _⟩ :=
    C13_share_forwards_source_and_selector example_query Prod.fst example_items 6
      (stl_enumerable_reproduces example_items) (fun _ _ => rfl) (by decide)
  refine ⟨c, q₁, c', q₁', h₁, h₂, hs₁.trans hs₂.symm, ?_⟩
  rw [hs₂, hg]
  decide

end linqxx
